import Mathlib

/-!
Verification of the resource-allocation planner of this repository
(`infra/crs/render_compose.py` and the `CpuSetCodec` component specified in
the design document and exercised by `tests/test_render_compose.py`).

Python strings are embedded as `List Char`, Python `int` as `Int`
(CPU core ids and memory amounts in MB), Python dicts that preserve
insertion order as association lists, Python sets as lists observed up to
membership (error payloads hold the canonical sorted deduplicated list),
and fatal `sys.exit(1)` conditions as an `Except` error value.
-/

/-- Python strings are modelled as lists of characters. -/
abbrev Str : Type := List Char

/-- Decimal digit test, `'0' ≤ c ≤ '9'` by code point. -/
def isDigitC (c : Char) : Bool := 48 ≤ c.toNat && c.toNat ≤ 57

/-- Whitespace test covering the characters `str.strip` removes that can
occur in configuration values. -/
def isWsC (c : Char) : Bool := c = ' ' || c = '\t' || c = '\n' || c = '\r'

/-- The character for a single decimal digit. -/
def digitChar (d : Nat) : Char := Char.ofNat (48 + d)

/-- Value of a decimal digit string, most significant digit first. -/
def digitsVal (l : List Char) : Nat := l.foldl (fun a c => 10 * a + (c.toNat - 48)) 0

/-- Parse a nonempty all-digit string to a natural number; `none` models a
raised `ValueError`. -/
def parseDigits (l : List Char) : Option Nat :=
  if l.isEmpty then none
  else if l.all isDigitC then some (digitsVal l) else none

/-- Fuel-driven digit renderer; `fuel` bounds the recursion depth and any
`fuel > n` is enough. -/
def renderNatGo : Nat → Nat → List Char
  | 0, _ => []
  | fuel + 1, n =>
    if n < 10 then [digitChar n]
    else renderNatGo fuel (n / 10) ++ [digitChar (n % 10)]

/-- Decimal rendering of a natural number, as Python `str(n)` produces for
nonnegative `n`. -/
def renderNat (n : Nat) : List Char := renderNatGo (n + 1) n

theorem renderNatGo_fuel : ∀ (n f1 f2 : Nat), n < f1 → n < f2 →
    renderNatGo f1 n = renderNatGo f2 n := by
  intro n
  induction n using Nat.strong_induction_on with
  | _ n ih =>
    intro f1 f2 h1 h2
    cases f1 with
    | zero => omega
    | succ g1 =>
      cases f2 with
      | zero => omega
      | succ g2 =>
        simp only [renderNatGo]
        split
        · rfl
        · next h =>
          rw [ih (n / 10) (by omega) g1 g2 (by omega) (by omega)]

/-- Unfolding equation for `renderNat`. -/
theorem renderNat_eq (n : Nat) :
    renderNat n = if n < 10 then [digitChar n] else renderNat (n / 10) ++ [digitChar (n % 10)] := by
  show renderNatGo (n + 1) n = _
  cases hlt : decide (n < 10) with
  | true =>
    simp only [renderNatGo]
    rw [if_pos (by simpa using hlt), if_pos (by simpa using hlt)]
  | false =>
    have h : ¬ n < 10 := by simpa using hlt
    simp only [renderNatGo]
    rw [if_neg h, if_neg h]
    unfold renderNat
    rw [renderNatGo_fuel (n / 10) n (n / 10 + 1) (by omega) (by omega)]

/-- Python `str.strip()` on the embedded string type. -/
def pyStrip (l : List Char) : List Char :=
  ((l.dropWhile isWsC).reverse.dropWhile isWsC).reverse

/-- ASCII upper-casing of one character, as Python `str.upper()` acts on the
characters appearing in resource specifications. -/
def toUpperChar (c : Char) : Char :=
  if 97 ≤ c.toNat ∧ c.toNat ≤ 122 then Char.ofNat (c.toNat - 32) else c

/-- Python `str.upper()`. -/
def pyUpper (l : List Char) : List Char := l.map toUpperChar

/-- Python `int(s)` on an optionally signed decimal string: surrounding
whitespace is tolerated, a single leading `-` or `+` is allowed, and the
rest must be nonempty and all digits; `none` models a raised `ValueError`. -/
def pyIntCore : List Char → Option Int
  | [] => none
  | c :: rest =>
    if c = '-' then (parseDigits rest).map (fun n => -(Int.ofNat n))
    else if c = '+' then (parseDigits rest).map Int.ofNat
    else (parseDigits (c :: rest)).map Int.ofNat

def pyInt (s : List Char) : Option Int := pyIntCore (pyStrip s)

/-- Decimal rendering of an integer, as Python `str(k)` / f-string
interpolation produces. -/
def renderInt (k : Int) : List Char :=
  if k < 0 then '-' :: renderNat (-k).toNat else renderNat k.toNat

theorem digitChar_toNat {d : Nat} (h : d < 10) : (digitChar d).toNat = 48 + d := by
  interval_cases d <;> rfl

theorem isDigitC_digitChar {d : Nat} (h : d < 10) : isDigitC (digitChar d) = true := by
  simp [isDigitC, digitChar_toNat h]; omega

theorem renderNat_ne_nil (n : Nat) : renderNat n ≠ [] := by
  rw [renderNat_eq]
  split <;> simp

theorem renderNat_all_digit (n : Nat) : ∀ c ∈ renderNat n, isDigitC c = true := by
  induction n using Nat.strong_induction_on with
  | _ n ih =>
    rw [renderNat_eq]
    split
    · next h => simpa using isDigitC_digitChar h
    · next h =>
      intro c hc
      rcases List.mem_append.mp hc with h1 | h1
      · exact ih (n / 10) (by omega) c h1
      · simp at h1
        subst h1
        exact isDigitC_digitChar (by omega)

theorem digitsVal_append_digit (l : List Char) (c : Char) :
    digitsVal (l ++ [c]) = 10 * digitsVal l + (c.toNat - 48) := by
  simp [digitsVal, List.foldl_append]

theorem digitsVal_renderNat (n : Nat) : digitsVal (renderNat n) = n := by
  induction n using Nat.strong_induction_on with
  | _ n ih =>
    rw [renderNat_eq]
    split
    · next h =>
      simp [digitsVal, digitChar_toNat h]
    · next h =>
      rw [digitsVal_append_digit, ih (n / 10) (by omega), digitChar_toNat (by omega)]
      omega

theorem parseDigits_renderNat (n : Nat) : parseDigits (renderNat n) = some n := by
  have h1 := renderNat_ne_nil n
  have h2 := renderNat_all_digit n
  simp [parseDigits, List.isEmpty_iff, h1, List.all_eq_true.mpr h2, digitsVal_renderNat]

theorem not_isWsC_of_isDigitC {c : Char} (h : isDigitC c = true) : isWsC c = false := by
  by_contra hw
  rw [Bool.not_eq_false] at hw
  have hd : c = ' ' ∨ c = '\t' ∨ c = '\n' ∨ c = '\r' := by
    simpa [isWsC, Bool.or_eq_true, decide_eq_true_eq, or_assoc] using hw
  rcases hd with he | he | he | he <;> subst he <;> exact absurd h (by decide)

theorem dropWhile_of_forall_not {p : Char → Bool} {l : List Char}
    (h : ∀ c ∈ l, p c = false) : l.dropWhile p = l := by
  cases l with
  | nil => rfl
  | cons c t =>
    rw [List.dropWhile_cons]
    simp [h c (by simp)]

theorem pyStrip_of_forall_not {l : List Char} (h : ∀ c ∈ l, isWsC c = false) :
    pyStrip l = l := by
  unfold pyStrip
  rw [dropWhile_of_forall_not h, dropWhile_of_forall_not (by simpa using h), List.reverse_reverse]

theorem pyInt_of_digits {l : List Char} (h : ∀ c ∈ l, isDigitC c = true) (hne : l ≠ []) :
    pyInt l = some (Int.ofNat (digitsVal l)) := by
  unfold pyInt
  rw [pyStrip_of_forall_not (fun c hc => not_isWsC_of_isDigitC (h c hc))]
  cases l with
  | nil => exact absurd rfl hne
  | cons c rest =>
    have hc : isDigitC c = true := h c (by simp)
    have hneq1 : c ≠ '-' := fun he => by subst he; exact absurd hc (by decide)
    have hneq2 : c ≠ '+' := fun he => by subst he; exact absurd hc (by decide)
    simp only [pyIntCore, if_neg hneq1, if_neg hneq2]
    rw [show parseDigits (c :: rest) = some (digitsVal (c :: rest)) by
        simp [parseDigits, List.all_eq_true.mpr h]]
    rfl

theorem pyInt_renderNat (n : Nat) : pyInt (renderNat n) = some (n : Int) := by
  rw [pyInt_of_digits (renderNat_all_digit n) (renderNat_ne_nil n), digitsVal_renderNat]
  rfl

theorem renderInt_natCast (n : Nat) : renderInt (n : Int) = renderNat n := by
  unfold renderInt
  rw [if_neg (by omega)]
  simp

/-! ## Embedding of `infra/crs/render_compose.py` codecs

`parse_cpu_range` (lines 53-68), `format_cpu_list` (71-81),
`parse_memory_mb` (84-101) and `format_memory` (104-117). CPU core ids and
memory MB amounts are Python ints, embedded as `Int`; a `none` result models
an uncaught `ValueError` from `int()`. -/

/-- Python `range(a, b)` as a list of integers. -/
def intRange (a b : Int) : List Int := (List.range (b - a).toNat).map (fun i => a + i)

/-- Embeds `parse_cpu_range`: a spec containing `-` is split at the first
`-` into `start`/`end` (`str.split('-', 1)`) and expands to
`range(int(start), int(end) + 1)`; otherwise it is a single core
`[int(cpu_spec)]`. -/
def parse_cpu_range (cpu_spec : Str) : Option (List Int) :=
  if '-' ∈ cpu_spec then
    let s := cpu_spec.takeWhile (fun c => c != '-')
    let e := (cpu_spec.dropWhile (fun c => c != '-')).tail
    match pyInt s, pyInt e with
    | some a, some b => some (intRange a (b + 1))
    | _, _ => none
  else (pyInt cpu_spec).map (fun n => [n])

/-- Embeds `format_cpu_list`: `','.join(map(str, cpu_list))`. -/
def format_cpu_list (cpu_list : List Int) : Str :=
  List.intercalate [','] (cpu_list.map renderInt)

/-- Embeds `parse_memory_mb`: strip and upper-case, then a trailing `G`
multiplies the numeric prefix by 1024, a trailing `M` takes it as is, and a
suffix-free string is already MB. -/
def parse_memory_mb (memory_spec : Str) : Option Int :=
  let t := pyUpper (pyStrip memory_spec)
  if t.getLast? = some 'G' then (pyInt t.dropLast).map (fun m => m * 1024)
  else if t.getLast? = some 'M' then pyInt t.dropLast
  else pyInt t

/-- Embeds `format_memory`: `"<mb//1024>G"` when `mb ≥ 1024` divides evenly
by 1024, else `"<mb>M"`. Lean `Int` division `/` is Euclidean division,
which agrees with Python floor division `//` on the nonnegative operands
reaching this branch. -/
def format_memory (memory_mb : Int) : Str :=
  if 1024 ≤ memory_mb ∧ memory_mb % 1024 = 0 then renderInt (memory_mb / 1024) ++ ['G']
  else renderInt memory_mb ++ ['M']

example : parse_cpu_range (("0-7").toList) = some [0, 1, 2, 3, 4, 5, 6, 7] := by decide
example : parse_cpu_range (("5").toList) = some [5] := by decide
example : parse_cpu_range (("0-3,8,12-15").toList) = none := by decide
example : parse_memory_mb (("4G").toList) = some 4096 := by decide
example : parse_memory_mb (("512M").toList) = some 512 := by decide
example : parse_memory_mb (("1024").toList) = some 1024 := by decide
example : parse_memory_mb (("2g").toList) = some 2048 := by decide

theorem toUpperChar_of_digit {c : Char} (h : isDigitC c = true) : toUpperChar c = c := by
  simp only [isDigitC, Bool.and_eq_true, decide_eq_true_eq] at h
  unfold toUpperChar
  rw [if_neg (by omega)]

/-- Stripping and upper-casing fix a rendered number followed by a
non-lowercase, non-whitespace unit character. -/
theorem normalize_digits_concat (n : Nat) {c : Char} (hws : isWsC c = false)
    (hup : toUpperChar c = c) :
    pyUpper (pyStrip (renderNat n ++ [c])) = renderNat n ++ [c] := by
  have hall : ∀ x ∈ renderNat n ++ [c], isWsC x = false := by
    intro x hx
    rcases List.mem_append.mp hx with h1 | h1
    · exact not_isWsC_of_isDigitC (renderNat_all_digit n x h1)
    · simpa using (by simp at h1; subst h1; exact hws)
  rw [pyStrip_of_forall_not hall]
  unfold pyUpper
  rw [List.map_append]
  congr 1
  · rw [List.map_congr_left (fun x hx => toUpperChar_of_digit (renderNat_all_digit n x hx))]
    exact List.map_id _
  · simpa using hup

theorem parse_mem_digits_G (n : Nat) :
    parse_memory_mb (renderNat n ++ ['G']) = some ((n : Int) * 1024) := by
  simp only [parse_memory_mb]
  rw [normalize_digits_concat n (by decide) (by decide)]
  simp [List.getLast?_concat, List.dropLast_concat, pyInt_renderNat]

theorem parse_mem_digits_M (n : Nat) :
    parse_memory_mb (renderNat n ++ ['M']) = some (n : Int) := by
  simp only [parse_memory_mb]
  rw [normalize_digits_concat n (by decide) (by decide)]
  simp [List.getLast?_concat, List.dropLast_concat, pyInt_renderNat]

/-- C3: for every non-negative integer `mb`, `parse_memory_mb` applied to
`format_memory mb` returns `mb` (`MemorySpecCodec.Parse (Format mb) = mb`),
where `format_memory` emits `"<mb/1024>G"` exactly when `mb` is a positive
multiple of 1024 and `"<mb>M"` otherwise. -/
theorem c3_memory_roundtrip :
    (∀ mb : Nat, parse_memory_mb (format_memory (mb : Int)) = some ((mb : Int)))
    ∧ (∀ mb : Nat,
        (0 < mb ∧ 1024 ∣ mb → format_memory (mb : Int) = renderNat (mb / 1024) ++ ['G']) ∧
        (¬(0 < mb ∧ 1024 ∣ mb) → format_memory (mb : Int) = renderNat mb ++ ['M'])) := by
  have key : ∀ mb : Nat,
      (1024 ≤ mb ∧ mb % 1024 = 0 → format_memory (mb : Int) = renderNat (mb / 1024) ++ ['G'])
      ∧ (¬(1024 ≤ mb ∧ mb % 1024 = 0) → format_memory (mb : Int) = renderNat mb ++ ['M']) := by
    intro mb
    constructor
    · intro h
      unfold format_memory
      rw [if_pos (by constructor <;> omega)]
      rw [show ((mb : Int)) / 1024 = ((mb / 1024 : Nat) : Int) from by omega, renderInt_natCast]
    · intro h
      unfold format_memory
      rw [if_neg (by omega), renderInt_natCast]
  refine ⟨?_, ?_⟩
  · intro mb
    by_cases h : 1024 ≤ mb ∧ mb % 1024 = 0
    · rw [(key mb).1 h, parse_mem_digits_G]
      congr 1
      omega
    · rw [(key mb).2 h, parse_mem_digits_M]
  · intro mb
    constructor
    · intro h
      exact (key mb).1 (by omega)
    · intro h
      exact (key mb).2 (by omega)

theorem c3_memory_roundtrip_witness :
    format_memory ((2048 : Nat) : Int) = renderNat (2048 / 1024) ++ ['G'] ∧
    parse_memory_mb (format_memory ((2048 : Nat) : Int)) = some ((2048 : Nat) : Int) :=
  ⟨(c3_memory_roundtrip.2 2048).1 ⟨by norm_num, by norm_num⟩, c3_memory_roundtrip.1 2048⟩

/-! ## CpuSetCodec, modelled from the spec

The comma-list cpu-set codec specified in §4.1 and exercised by
`tests/test_render_compose.py` lives in `bug_finding/src/render_compose.py`,
which is not part of the sources here (only its test suite is); the
functions below are therefore modelled from the spec's words: a
comma-separated sequence of tokens, each a single non-negative integer or an
inclusive range `a-b` with `a ≤ b`, whitespace around commas ignored,
producing the union of all tokens deduplicated in ascending order, and
failing (`none`, modelling `ParseError`) on any malformed token or inverted
range. -/

namespace CpuSetCodec

/-- Modelled from the spec: split a string at every comma, Python
`str.split(',')` style (no separator collapsing, empty pieces kept). -/
def splitComma : List Char → List (List Char)
  | [] => [[]]
  | c :: rest =>
    if c = ',' then [] :: splitComma rest
    else
      match splitComma rest with
      | [] => [[c]]
      | t :: ts => (c :: t) :: ts

/-- Abstract grammar of one cpu-spec token. -/
inductive CpuTok where
  | single (n : Nat)
  | rng (a b : Nat)
deriving DecidableEq

/-- The set of cores a token denotes. -/
def tokCores : CpuTok → List Nat
  | .single n => [n]
  | .rng a b => List.range' a (b + 1 - a)

/-- Spec-validity of a token: a range must satisfy `a ≤ b`. -/
def tokValid : CpuTok → Bool
  | .single _ => true
  | .rng a b => a ≤ b

/-- Concrete text of a token. -/
def renderTok : CpuTok → List Char
  | .single n => renderNat n
  | .rng a b => renderNat a ++ '-' :: renderNat b

/-- Canonical form of a core list: deduplicated and sorted ascending. -/
def canonNat (l : List Nat) : List Nat :=
  List.insertionSort (fun a b => a ≤ b) l.dedup

/-- Modelled from the spec: parse one (already stripped) token, either a
nonnegative integer or an inclusive range `a-b`, rejecting inverted
ranges. -/
def parseTok (t : List Char) : Option (List Nat) :=
  if '-' ∈ t then
    let a := t.takeWhile (fun c => c != '-')
    let b := (t.dropWhile (fun c => c != '-')).tail
    match parseDigits a, parseDigits b with
    | some x, some y => if x ≤ y then some (List.range' x (y + 1 - x)) else none
    | _, _ => none
  else (parseDigits t).map (fun n => [n])

/-- Option-valued traversal of the token list; `none` as soon as any token
fails to parse. -/
def mapO (f : List Char → Option (List Nat)) : List (List Char) → Option (List (List Nat))
  | [] => some []
  | t :: ts =>
    match f t, mapO f ts with
    | some l, some ls => some (l :: ls)
    | _, _ => none

/-- Modelled from the spec: `CpuSetCodec.Parse` splits on commas, strips
each token, parses every token, and returns the deduplicated ascending
union; any malformed token makes the whole parse fail. -/
def Parse (s : List Char) : Option (List Nat) :=
  (mapO (fun t => parseTok (pyStrip t)) (splitComma s)).map (fun ls => canonNat ls.flatten)

/-- A token text that is a plain non-negative integer. -/
def IsIntTok (t : List Char) : Prop := t ≠ [] ∧ ∀ c ∈ t, isDigitC c = true

/-- A token text that is a well-formed range `a-b` with `a ≤ b`. -/
def IsRangeTok (t : List Char) : Prop :=
  ∃ a b : List Char, t = a ++ '-' :: b ∧ a ≠ [] ∧ b ≠ [] ∧
    (∀ c ∈ a, isDigitC c = true) ∧ (∀ c ∈ b, isDigitC c = true) ∧
    digitsVal a ≤ digitsVal b

end CpuSetCodec

example : CpuSetCodec.Parse (("0-7").toList) = some [0, 1, 2, 3, 4, 5, 6, 7] := by decide
example : CpuSetCodec.Parse (("5").toList) = some [5] := by decide
example : CpuSetCodec.Parse (("0,2,4,6").toList) = some [0, 2, 4, 6] := by decide
example : CpuSetCodec.Parse (("0-3, 8, 12-15").toList) = some [0, 1, 2, 3, 8, 12, 13, 14, 15] := by
  decide
example : CpuSetCodec.Parse (("4-11").toList) = some [4, 5, 6, 7, 8, 9, 10, 11] := by decide
example : CpuSetCodec.Parse (("5-3").toList) = none := by decide
example : CpuSetCodec.Parse (("3x").toList) = none := by decide
example : CpuSetCodec.Parse (("").toList) = none := by decide

example : renderNat 45 = [Char.ofNat 52, Char.ofNat 53] := by decide
example : format_memory 4096 = ("4G").toList := by decide
example : format_memory 512 = ("512M").toList := by decide

namespace CpuSetCodec

theorem digit_ne_dash {c : Char} (h : isDigitC c = true) : c ≠ '-' :=
  fun he => by subst he; exact absurd h (by decide)

theorem digit_ne_comma {c : Char} (h : isDigitC c = true) : c ≠ ',' :=
  fun he => by subst he; exact absurd h (by decide)

theorem ws_ne_comma {c : Char} (h : isWsC c = true) : c ≠ ',' := by
  have hd : c = ' ' ∨ c = '\t' ∨ c = '\n' ∨ c = '\r' := by
    simpa [isWsC, Bool.or_eq_true, decide_eq_true_eq, or_assoc] using h
  rcases hd with he | he | he | he <;> subst he <;> decide

theorem takeWhile_append_stop {p : Char → Bool} {xs ys : List Char} {y : Char}
    (hxs : ∀ x ∈ xs, p x = true) (hy : p y = false) :
    (xs ++ y :: ys).takeWhile p = xs := by
  induction xs with
  | nil => simp [List.takeWhile_cons, hy]
  | cons a t ih =>
    rw [List.cons_append, List.takeWhile_cons, hxs a (by simp)]
    rw [ih (fun x hx => hxs x (by simp [hx]))]
    simp

theorem dropWhile_append_stop {p : Char → Bool} {xs ys : List Char} {y : Char}
    (hxs : ∀ x ∈ xs, p x = true) (hy : p y = false) :
    (xs ++ y :: ys).dropWhile p = y :: ys := by
  induction xs with
  | nil => simp [List.dropWhile_cons, hy]
  | cons a t ih =>
    rw [List.cons_append, List.dropWhile_cons, hxs a (by simp)]
    exact ih (fun x hx => hxs x (by simp [hx]))

theorem dropWhile_ws_append {w rest : List Char} (hw : ∀ c ∈ w, isWsC c = true) :
    (w ++ rest).dropWhile isWsC = rest.dropWhile isWsC := by
  induction w with
  | nil => rfl
  | cons a t ih =>
    rw [List.cons_append, List.dropWhile_cons, hw a (by simp)]
    exact ih (fun c hc => hw c (by simp [hc]))

/-- Stripping removes exactly the surrounding whitespace padding from a
token whose own characters are not whitespace. -/
theorem pyStrip_pad {w1 w2 core : List Char} (h1 : ∀ c ∈ w1, isWsC c = true)
    (h2 : ∀ c ∈ w2, isWsC c = true) (hne : core ≠ [])
    (hcore : ∀ c ∈ core, isWsC c = false) :
    pyStrip (w1 ++ core ++ w2) = core := by
  unfold pyStrip
  rw [List.append_assoc, dropWhile_ws_append h1]
  rw [show (core ++ w2).dropWhile isWsC = core ++ w2 by
    cases core with
    | nil => exact absurd rfl hne
    | cons c t =>
      rw [List.cons_append, List.dropWhile_cons, hcore c (by simp)]
      simp]
  rw [List.reverse_append, dropWhile_ws_append (fun c hc => h2 c (List.mem_reverse.mp hc))]
  rw [dropWhile_of_forall_not (fun c hc => hcore c (List.mem_reverse.mp hc)), List.reverse_reverse]

theorem splitComma_no_comma {t : List Char} (h : ',' ∉ t) : splitComma t = [t] := by
  induction t with
  | nil => rfl
  | cons c r ih =>
    have hc : c ≠ ',' := fun he => h (by rw [he]; exact List.mem_cons_self _ _)
    have hr : ',' ∉ r := fun hm => h (List.mem_cons_of_mem _ hm)
    simp only [splitComma, if_neg hc, ih hr]

theorem splitComma_append {tkn rest : List Char} (h : ',' ∉ tkn) :
    splitComma (tkn ++ ',' :: rest) = tkn :: splitComma rest := by
  induction tkn with
  | nil => simp [splitComma]
  | cons c tl ih =>
    have hc : c ≠ ',' := fun he => h (by rw [he]; exact List.mem_cons_self _ _)
    have htl : ',' ∉ tl := fun hm => h (List.mem_cons_of_mem _ hm)
    rw [List.cons_append]
    simp only [splitComma, if_neg hc, ih htl]

/-- Comma-join of a nonempty list of token texts (the inverse shape of
`splitComma`). -/
def joinComma : List (List Char) → List Char
  | [] => []
  | [t] => t
  | t :: ts => t ++ ',' :: joinComma ts

theorem splitComma_joinComma {parts : List (List Char)} (hne : parts ≠ [])
    (h : ∀ p ∈ parts, ',' ∉ p) : splitComma (joinComma parts) = parts := by
  induction parts with
  | nil => exact absurd rfl hne
  | cons p ps ih =>
    cases ps with
    | nil => exact splitComma_no_comma (h p (by simp))
    | cons q qs =>
      rw [show joinComma (p :: q :: qs) = p ++ ',' :: joinComma (q :: qs) from rfl]
      rw [splitComma_append (h p (by simp))]
      rw [ih (by simp) (fun r hr => h r (List.mem_cons_of_mem _ hr))]

end CpuSetCodec

namespace CpuSetCodec

theorem renderTok_ne_nil (t : CpuTok) : renderTok t ≠ [] := by
  cases t with
  | single n => exact renderNat_ne_nil n
  | rng a b => simp [renderTok]

theorem renderTok_chars (t : CpuTok) : ∀ c ∈ renderTok t, isDigitC c = true ∨ c = '-' := by
  cases t with
  | single n => exact fun c hc => Or.inl (renderNat_all_digit n c hc)
  | rng a b =>
    intro c hc
    rcases List.mem_append.mp hc with h1 | h1
    · exact Or.inl (renderNat_all_digit a c h1)
    · rcases List.mem_cons.mp h1 with h2 | h2
      · exact Or.inr h2
      · exact Or.inl (renderNat_all_digit b c h2)

theorem renderTok_not_ws (t : CpuTok) : ∀ c ∈ renderTok t, isWsC c = false := by
  intro c hc
  rcases renderTok_chars t c hc with h | h
  · exact not_isWsC_of_isDigitC h
  · subst h; decide

theorem renderTok_no_comma (t : CpuTok) : ',' ∉ renderTok t := by
  intro hm
  rcases renderTok_chars t ',' hm with h | h
  · exact digit_ne_comma h rfl
  · exact absurd h (by decide)

theorem parseTok_renderTok {t : CpuTok} (h : tokValid t = true) :
    parseTok (renderTok t) = some (tokCores t) := by
  cases t with
  | single n =>
    have hni : '-' ∉ renderTok (CpuTok.single n) :=
      fun hm => digit_ne_dash (renderNat_all_digit n '-' hm) rfl
    simp only [renderTok] at hni ⊢
    unfold parseTok
    rw [if_neg hni, parseDigits_renderNat]
    rfl
  | rng a b =>
    have hv : a ≤ b := by simpa [tokValid] using h
    have hmem : '-' ∈ renderTok (CpuTok.rng a b) := by simp [renderTok]
    simp only [renderTok] at hmem ⊢
    unfold parseTok
    rw [if_pos hmem]
    simp only
    rw [takeWhile_append_stop
        (fun x hx => by simpa [bne_iff_ne] using digit_ne_dash (renderNat_all_digit a x hx))
        (by simp)]
    rw [dropWhile_append_stop
        (fun x hx => by simpa [bne_iff_ne] using digit_ne_dash (renderNat_all_digit a x hx))
        (by simp)]
    rw [List.tail_cons, parseDigits_renderNat, parseDigits_renderNat]
    simp only [if_pos hv]
    rfl

theorem parseDigits_eq_some_iff {l : List Char} {n : Nat} :
    parseDigits l = some n ↔ l ≠ [] ∧ (∀ c ∈ l, isDigitC c = true) ∧ digitsVal l = n := by
  constructor
  · intro h
    unfold parseDigits at h
    split at h
    · exact absurd h (by simp)
    · next h1 =>
      split at h
      · next h2 =>
        refine ⟨by simpa [List.isEmpty_iff] using h1, List.all_eq_true.mp h2, by
          injection h⟩
      · exact absurd h (by simp)
  · intro h
    obtain ⟨h1, h2, h3⟩ := h
    unfold parseDigits
    rw [if_neg (by simpa [List.isEmpty_iff] using h1), if_pos (List.all_eq_true.mpr h2), h3]

/-- If `-` occurs in `t`, `dropWhile` up to the first `-` lands on it. -/
theorem dropWhile_dash_mem {t : List Char} (h : '-' ∈ t) :
    ∃ b, t.dropWhile (fun c => c != '-') = '-' :: b := by
  induction t with
  | nil => simp at h
  | cons c r ih =>
    by_cases hc : c = '-'
    · subst hc
      exact ⟨r, by simp [List.dropWhile_cons]⟩
    · have hr : '-' ∈ r := by
        rcases List.mem_cons.mp h with h1 | h1
        · exact absurd h1.symm hc
        · exact h1
      obtain ⟨b, hb⟩ := ih hr
      exact ⟨b, by rw [List.dropWhile_cons, if_pos (by simpa [bne_iff_ne] using hc)]; exact hb⟩

theorem good_of_parseTok {t : List Char} {l : List Nat} (h : parseTok t = some l) :
    IsIntTok t ∨ IsRangeTok t := by
  unfold parseTok at h
  split at h
  · next hm =>
    obtain ⟨b, hb⟩ := dropWhile_dash_mem hm
    have hsplit : t = (t.takeWhile (fun c => c != '-')) ++ '-' :: b := by
      conv_lhs => rw [← List.takeWhile_append_dropWhile (fun c => c != '-') t]
      rw [hb]
    simp only [hb, List.tail_cons] at h
    rcases hpa : parseDigits (t.takeWhile (fun c => c != '-')) with _ | x
    · rw [hpa] at h; simp at h
    rcases hpb : parseDigits b with _ | y
    · rw [hpa, hpb] at h; simp at h
    rw [hpa, hpb] at h
    have h2 : (if x ≤ y then some (List.range' x (y + 1 - x)) else none) = some l := h
    rcases parseDigits_eq_some_iff.mp hpa with ⟨hane, hadig, hav⟩
    rcases parseDigits_eq_some_iff.mp hpb with ⟨hbne, hbdig, hbv⟩
    split at h2
    · next hxy =>
      exact Or.inr ⟨_, b, hsplit, hane, hbne, hadig, hbdig, by omega⟩
    · exact absurd h2 (by simp)
  · next hm =>
    rcases hp : parseDigits t with _ | n
    · rw [hp] at h; simp at h
    · rcases parseDigits_eq_some_iff.mp hp with ⟨hne, hdig, _⟩
      exact Or.inl ⟨hne, hdig⟩

theorem parseTok_of_good {t : List Char} (h : IsIntTok t ∨ IsRangeTok t) :
    ∃ l, parseTok t = some l := by
  rcases h with ⟨hne, hdig⟩ | ⟨a, b, hsplit, hane, hbne, hadig, hbdig, hle⟩
  · have hni : '-' ∉ t := fun hm => digit_ne_dash (hdig '-' hm) rfl
    unfold parseTok
    rw [if_neg hni]
    rw [show parseDigits t = some (digitsVal t) from
      parseDigits_eq_some_iff.mpr ⟨hne, hdig, rfl⟩]
    exact ⟨[digitsVal t], rfl⟩
  · subst hsplit
    have hmem : '-' ∈ a ++ '-' :: b := by simp
    unfold parseTok
    rw [if_pos hmem]
    simp only
    rw [takeWhile_append_stop
        (fun x hx => by simpa [bne_iff_ne] using digit_ne_dash (hadig x hx)) (by simp)]
    rw [dropWhile_append_stop
        (fun x hx => by simpa [bne_iff_ne] using digit_ne_dash (hadig x hx)) (by simp)]
    rw [List.tail_cons]
    rw [show parseDigits a = some (digitsVal a) from
      parseDigits_eq_some_iff.mpr ⟨hane, hadig, rfl⟩]
    rw [show parseDigits b = some (digitsVal b) from
      parseDigits_eq_some_iff.mpr ⟨hbne, hbdig, rfl⟩]
    simp only [if_pos hle]
    exact ⟨_, rfl⟩

theorem parseTok_eq_none_iff {t : List Char} :
    parseTok t = none ↔ ¬(IsIntTok t ∨ IsRangeTok t) := by
  constructor
  · intro hn hg
    obtain ⟨l, hl⟩ := parseTok_of_good hg
    rw [hn] at hl
    exact Option.noConfusion hl
  · intro hg
    rcases hp : parseTok t with _ | l
    · rfl
    · exact absurd (good_of_parseTok hp) hg

end CpuSetCodec

namespace CpuSetCodec

theorem mapO_map_of_forall {A : Type} (f : List Char → Option (List Nat))
    (g : A → List Char) (h : A → List Nat) :
    ∀ (l : List A), (∀ x ∈ l, f (g x) = some (h x)) → mapO f (l.map g) = some (l.map h) := by
  intro l
  induction l with
  | nil => intro _; rfl
  | cons x xs ih =>
    intro H
    rw [List.map_cons, List.map_cons]
    simp only [mapO, H x (by simp), ih (fun y hy => H y (by simp [hy]))]

theorem mapO_eq_none_iff {f : List Char → Option (List Nat)} :
    ∀ {ts : List (List Char)}, mapO f ts = none ↔ ∃ t ∈ ts, f t = none := by
  intro ts
  induction ts with
  | nil => simp [mapO]
  | cons t rest ih =>
    simp only [mapO]
    rcases hf : f t with _ | l
    · simp [hf]
    · rcases hm : mapO f rest with _ | ls
      · obtain ⟨u, hu1, hu2⟩ := ih.mp hm
        simp only [hf, hm]
        constructor
        · intro _
          exact ⟨u, List.mem_cons_of_mem _ hu1, hu2⟩
        · intro _
          trivial
      · have : ¬ ∃ u ∈ rest, f u = none := fun he => by
          rw [ih.mpr he] at hm
          exact Option.noConfusion hm
        simp only [hf, hm]
        constructor
        · intro he; exact Option.noConfusion he
        · intro he
          rcases he with ⟨u, hu1, hu2⟩
          rcases List.mem_cons.mp hu1 with h1 | h1
          · subst h1; rw [hf] at hu2; exact Option.noConfusion hu2
          · exact absurd ⟨u, h1, hu2⟩ this

theorem canonNat_sorted (l : List Nat) : List.Sorted (· < ·) (canonNat l) := by
  have hs : List.Sorted (fun a b : Nat => a ≤ b) (canonNat l) :=
    List.sorted_insertionSort _ _
  have hn : (canonNat l).Nodup :=
    ((List.perm_insertionSort (fun a b : Nat => a ≤ b) l.dedup).nodup_iff).mpr (List.nodup_dedup l)
  exact (hs.and hn).imp (fun hab => lt_of_le_of_ne hab.1 hab.2)

theorem canonNat_mem (l : List Nat) (x : Nat) : x ∈ canonNat l ↔ x ∈ l := by
  unfold canonNat
  rw [(List.perm_insertionSort (fun a b : Nat => a ≤ b) l.dedup).mem_iff, List.mem_dedup]

/-- Text of a whole cpu spec: whitespace-padded tokens joined by commas. -/
def renderSpec (toks : List (List Char × CpuTok × List Char)) : List Char :=
  joinComma (toks.map (fun p => p.1 ++ renderTok p.2.1 ++ p.2.2))

end CpuSetCodec

open CpuSetCodec in
/-- C1: for every valid cpu spec string — comma-separated tokens, each a
single non-negative integer or an inclusive range `a-b` with `a ≤ b`,
optionally whitespace-padded — `CpuSetCodec.Parse` returns the union of all
tokens' cores, deduplicated and sorted ascending; in particular
`Parse "0-3,8,12-15" = [0,1,2,3,8,12,13,14,15]`,
`Parse "0-3,2-5" = [0,1,2,3,4,5]` and `Parse "8,0-3,5" = [0,1,2,3,5,8]`. -/
theorem c1_cpuset_parse :
    (∀ toks : List (List Char × CpuTok × List Char),
        toks ≠ [] →
        (∀ p ∈ toks, (∀ c ∈ p.1, isWsC c = true) ∧ (∀ c ∈ p.2.2, isWsC c = true) ∧
          tokValid p.2.1 = true) →
        ∃ r, Parse (renderSpec toks) = some r ∧
          List.Sorted (· < ·) r ∧
          (∀ x, x ∈ r ↔ ∃ p ∈ toks, x ∈ tokCores p.2.1))
    ∧ Parse (("0-3,8,12-15").toList) = some [0, 1, 2, 3, 8, 12, 13, 14, 15]
    ∧ Parse (("0-3,2-5").toList) = some [0, 1, 2, 3, 4, 5]
    ∧ Parse (("8,0-3,5").toList) = some [0, 1, 2, 3, 5, 8] := by
  refine ⟨?_, by decide, by decide, by decide⟩
  intro toks hne hval
  refine ⟨canonNat (toks.map (fun p => tokCores p.2.1)).flatten, ?_, canonNat_sorted _, ?_⟩
  · unfold Parse renderSpec
    have hcomma : ∀ q ∈ toks.map (fun p => p.1 ++ renderTok p.2.1 ++ p.2.2), ',' ∉ q := by
      intro q hq
      obtain ⟨p, hp, rfl⟩ := List.mem_map.mp hq
      intro hcm
      rcases List.mem_append.mp hcm with hcc | hcc
      · rcases List.mem_append.mp hcc with h1 | h1
        · exact ws_ne_comma ((hval p hp).1 ',' h1) rfl
        · exact renderTok_no_comma _ h1
      · exact ws_ne_comma ((hval p hp).2.1 ',' hcc) rfl
    rw [splitComma_joinComma (by simpa using hne) hcomma]
    have hstep : ∀ p ∈ toks,
        (fun t => parseTok (pyStrip t)) ((fun p => p.1 ++ renderTok p.2.1 ++ p.2.2) p)
          = some (tokCores p.2.1) := by
      intro p hp
      obtain ⟨hw1, hw2, hv⟩ := hval p hp
      show parseTok (pyStrip (p.1 ++ renderTok p.2.1 ++ p.2.2)) = some (tokCores p.2.1)
      rw [pyStrip_pad hw1 hw2 (renderTok_ne_nil _) (renderTok_not_ws _)]
      exact parseTok_renderTok hv
    rw [mapO_map_of_forall (fun t => parseTok (pyStrip t))
      (fun p => p.1 ++ renderTok p.2.1 ++ p.2.2) (fun p => tokCores p.2.1) toks hstep]
    rfl
  · intro x
    rw [canonNat_mem]
    simp only [List.mem_flatten, List.mem_map]
    constructor
    · rintro ⟨cs, ⟨p, hp, rfl⟩, hxc⟩
      exact ⟨p, hp, hxc⟩
    · rintro ⟨p, hp, hxc⟩
      exact ⟨_, ⟨p, hp, rfl⟩, hxc⟩

open CpuSetCodec in
/-- Concrete tokens used to instantiate `c1_cpuset_parse`. -/
abbrev sampleToks : List (List Char × CpuTok × List Char) :=
  [([' '], CpuTok.rng 0 3, []), ([], CpuTok.single 8, [' '])]

open CpuSetCodec in
theorem c1_cpuset_parse_witness :
    sampleToks ≠ [] ∧
    ∃ r, Parse (renderSpec sampleToks) = some r ∧ List.Sorted (· < ·) r ∧
      (∀ x, x ∈ r ↔ ∃ p ∈ sampleToks, x ∈ tokCores p.2.1) :=
  ⟨by decide, c1_cpuset_parse.1 sampleToks (by decide) (by decide)⟩

open CpuSetCodec in
/-- C2: `CpuSetCodec.Parse` fails (`ParseError`, modelled as `none`) exactly
when some comma-separated token of the input, after stripping, is neither a
plain non-negative integer nor a well-formed range `a-b` with `a ≤ b` — so
in particular an inverted range like `"5-3"` makes the parse fail. -/
theorem c2_parse_error_iff :
    (∀ s : List Char, Parse s = none ↔
      ∃ t ∈ splitComma s, ¬(IsIntTok (pyStrip t) ∨ IsRangeTok (pyStrip t)))
    ∧ Parse (("5-3").toList) = none := by
  refine ⟨?_, by decide⟩
  intro s
  unfold Parse
  rw [Option.map_eq_none']
  rw [mapO_eq_none_iff]
  simp only [parseTok_eq_none_iff]

/-! ## Embedding of `get_crs_for_worker` (lines 120-264) and `main` (296-421)

Configuration mappings are insertion-ordered association lists (Python
dicts); Python sets are lists observed up to membership, with error
payloads holding the canonical sorted deduplicated list. -/

/-- One `{cpuset: ..., memory: ...}` resource mapping; both fields optional
(defaults `"0-3"` / `"4G"` are applied where the source calls `.get`). -/
structure ResEntry where
  cpuset : Option Str
  memory : Option Str
deriving DecidableEq

/-- The `resources` mapping of one CRS: per-worker entries keyed by worker
name, plus the optional direct `cpuset`/`memory` keys of the global form. -/
structure Resources where
  perWorker : List (String × ResEntry)
  cpuset : Option Str
  memory : Option Str
deriving DecidableEq

/-- One entry of the `crs` mapping: eligible workers and optional
resources. -/
structure CrsConfig where
  workers : List String
  resources : Option Resources
deriving DecidableEq

/-- One entry of the `workers` mapping. -/
structure WorkerRes where
  cpuset : Option Str
  memory : Option Str
deriving DecidableEq

/-- The `config-resource.yaml` contents: insertion-ordered `crs` and
`workers` mappings. -/
structure ResourceConfig where
  crs : List (String × CrsConfig)
  workers : List (String × WorkerRes)
deriving DecidableEq

/-- An allocation record; the source stores the strings
`format_cpu_list cpus` / `format_memory memoryMB` plus the constant
suffix `"runner"`; we keep the numeric payloads. The dict key holding the
formatted cpu list differs by provenance — `'cpus'` in the explicit loop
(line 209) but `'cpuset'` in the auto loop (line 259) — and is recorded in
`cpusKey`, because `main`'s logging loop reads `crs['cpuset']`
(line 394). -/
structure Alloc where
  name : String
  cpus : List Int
  memoryMB : Int
  suffix : String
  cpusKey : String
deriving DecidableEq

/-- Fatal conditions (`sys.exit(1)`, or an uncaught `ValueError` from
`int()`), carrying the data the printed message names. -/
inductive CrsError where
  | parseError (spec : Str)
  | outOfRange (crs worker : String) (offending : List Int) (range : Str)
  | conflict (crs worker : String) (cpus : List Int)
  | insufficientCpus (worker : String) (need remaining : Nat)
  | insufficientMemory (worker : String) (remainingMB : Int) (n : Nat)
deriving DecidableEq

/-- Canonical list form of a Python set of ints: deduplicated, ascending. -/
def canonInts (l : List Int) : List Int := List.insertionSort (fun a b => a ≤ b) l.dedup

def defaultCpu : Str := ("0-3").toList

def defaultMem : Str := ("4G").toList

/-- Embeds the classification loop (lines 149-171): keep CRS whose
`workers` list contains this worker; a per-worker `resources` entry makes
it explicit, else a direct `cpuset` key makes it explicit with the global
entry, else it is auto-divided. -/
def classifyCrs (workerName : String) : List (String × CrsConfig) →
    List (String × ResEntry) × List String
  | [] => ([], [])
  | (nm, cc) :: rest =>
    let acc := classifyCrs workerName rest
    if workerName ∈ cc.workers then
      match cc.resources with
      | some r =>
        match r.perWorker.lookup workerName with
        | some e => ((nm, e) :: acc.1, acc.2)
        | none =>
          if r.cpuset.isSome then ((nm, ⟨r.cpuset, r.memory⟩) :: acc.1, acc.2)
          else (acc.1, nm :: acc.2)
      | none => (acc.1, nm :: acc.2)
    else acc

/-- State threaded through the explicit-validation loop: allocations
emitted so far, used cpu cores, used memory. -/
structure ExpState where
  allocs : List Alloc
  used : List Int
  usedMem : Int
deriving DecidableEq

/-- Embeds one iteration of the explicit loop (lines 182-212): parse the
entry's specs (defaults `"0-3"`/`"4G"`), fail out-of-range if the claimed
cores leave the worker's set, fail conflict if they intersect the cores
used so far, else accumulate and append the allocation with suffix
`"runner"`. -/
def expStep (workerName : String) (workerCpus : List Int) (workerCpusSpec : Str)
    (st : ExpState) (nm : String) (e : ResEntry) : Except CrsError ExpState :=
  match parse_cpu_range (e.cpuset.getD defaultCpu) with
  | none => .error (.parseError (e.cpuset.getD defaultCpu))
  | some lst =>
    match parse_memory_mb (e.memory.getD defaultMem) with
    | none => .error (.parseError (e.memory.getD defaultMem))
    | some mem =>
      if lst.all (fun x => decide (x ∈ workerCpus)) = false then
        .error (.outOfRange nm workerName
          (canonInts (lst.filter (fun x => decide (x ∉ workerCpus)))) workerCpusSpec)
      else if lst.filter (fun x => decide (x ∈ st.used)) ≠ [] then
        .error (.conflict nm workerName (canonInts (lst.filter (fun x => decide (x ∈ st.used)))))
      else
        .ok ⟨st.allocs ++ [⟨nm, lst, mem, "runner", "cpus"⟩], st.used ++ lst, st.usedMem + mem⟩

/-- Embeds the explicit loop over the whole explicit list; the first
failure aborts the worker. -/
def processGo (workerName : String) (workerCpus : List Int) (workerCpusSpec : Str) :
    ExpState → List (String × ResEntry) → Except CrsError ExpState
  | st, [] => .ok st
  | st, (nm, e) :: rest =>
    match expStep workerName workerCpus workerCpusSpec st nm e with
    | .error err => .error err
    | .ok st2 => processGo workerName workerCpus workerCpusSpec st2 rest

/-- CPU slice of auto index `i` (lines 240-248): `remaining[i*c:(i+1)*c]`,
except the last index which takes everything from `i*c` on. -/
def autoSlice (remaining : List Int) (c n i : Nat) : List Int :=
  if i = n - 1 then remaining.drop (i * c) else (remaining.drop (i * c)).take c

/-- Memory of auto index `i` (lines 250-255): `m` for all but the last,
which receives `remMem - m*(n-1)`. -/
def autoMemOf (remMem m : Int) (n i : Nat) : Int :=
  if i = n - 1 then remMem - m * ((n - 1 : Nat) : Int) else m

/-- Embeds the auto-division block (lines 215-262): nothing to do when no
auto CRS exist; preconditions `len(remaining) ≥ n` and `remMem ≥ n*512`
are fatal when violated; then even division, the last CRS absorbing both
integer-division remainders. Lean `/` on `Int` agrees with Python `//` on
the positive operands reaching it. -/
def autoDivide (workerName : String) (remaining : List Int) (remMem : Int)
    (names : List String) : Except CrsError (List Alloc) :=
  if names.isEmpty then .ok []
  else
    let n := names.length
    if remaining.length < n then .error (.insufficientCpus workerName n remaining.length)
    else if remMem < (n : Int) * 512 then .error (.insufficientMemory workerName remMem n)
    else
      let c := remaining.length / n
      let m := remMem / (n : Int)
      .ok (names.enum.map (fun p =>
        ⟨p.2, autoSlice remaining c n p.1, autoMemOf remMem m n p.1, "runner", "cpuset"⟩))

/-- The worker's cpu spec (lines 135-141): `workers.get(name, {})` then
`.get('cpuset', '0-3')`. -/
def workerCpuSpec (cfg : ResourceConfig) (w : String) : Str :=
  ((cfg.workers.lookup w).getD ⟨none, none⟩).cpuset.getD defaultCpu

/-- The worker's memory spec (line 141): `.get('memory', '4G')`. -/
def workerMemSpec (cfg : ResourceConfig) (w : String) : Str :=
  ((cfg.workers.lookup w).getD ⟨none, none⟩).memory.getD defaultMem

/-- The worker's cpu set `set(parse_cpu_range(...))` as a deduplicated
list; empty when the spec does not parse (the full function errors out
first in that case). -/
def workerAllCpus (cfg : ResourceConfig) (w : String) : List Int :=
  ((parse_cpu_range (workerCpuSpec cfg w)).getD []).dedup

/-- Embeds `get_crs_for_worker` (lines 120-264): parse the worker's own
resources, classify the CRS entries, validate the explicit ones in order,
then auto-divide what remains (`sorted(worker_all_cpus - used_cpus)` and
the memory difference) among the auto ones; the result is the explicit
allocations followed by the auto allocations. -/
def get_crs_for_worker (workerName : String) (cfg : ResourceConfig) :
    Except CrsError (List Alloc) :=
  match parse_cpu_range (workerCpuSpec cfg workerName) with
  | none => .error (.parseError (workerCpuSpec cfg workerName))
  | some wcl =>
    match parse_memory_mb (workerMemSpec cfg workerName) with
    | none => .error (.parseError (workerMemSpec cfg workerName))
    | some wmem =>
      let workerCpus := wcl.dedup
      let cl := classifyCrs workerName cfg.crs
      if cl.1 = [] ∧ cl.2 = [] then .ok []
      else
        match processGo workerName workerCpus (workerCpuSpec cfg workerName) ⟨[], [], 0⟩ cl.1 with
        | .error e => .error e
        | .ok st =>
          match autoDivide workerName
              (List.insertionSort (fun a b => a ≤ b)
                (workerCpus.filter (fun x => decide (x ∉ st.used))))
              (wmem - st.usedMem) cl.2 with
          | .error e => .error e
          | .ok autos => .ok (st.allocs ++ autos)

/-- Run-level failure of `main`: either a fatal planning condition on
which it calls `sys.exit(1)` (lines 190-234), or the uncaught `KeyError`
raised by its logging loop — line 394 reads `crs['cpuset']` of every
allocation although explicit allocations store their cpu list under
`'cpus'` (line 209). -/
inductive RunError where
  | fatal (e : CrsError)
  | keyError (crs : String)
deriving DecidableEq

/-- Embeds the per-worker loop of `main` (lines 380-410): workers processed
in configuration order; a planning error aborts the entire remaining run;
an empty plan is skipped; otherwise the logging loop at line 394 reads
`crs['cpuset']` of every allocation, raising `KeyError` at the first
allocation whose cpu list is keyed `'cpus'` instead (the explicit ones,
line 209) and aborting the run before this worker's file is written; only
when every allocation carries the `'cpuset'` key is the compose file
rendered and written (modelled as appending to the output list). -/
def runGo (cfg : ResourceConfig) : List (String × WorkerRes) →
    List (String × List Alloc) × Option RunError
  | [] => ([], none)
  | (w, _) :: rest =>
    match get_crs_for_worker w cfg with
    | .error e => ([], some (.fatal e))
    | .ok [] => runGo cfg rest
    | .ok plan =>
      match plan.find? (fun a => a.cpusKey != "cpuset") with
      | some a => ([], some (.keyError a.name))
      | none =>
        let r := runGo cfg rest
        ((w, plan) :: r.1, r.2)

/-- The output files written, and the abort condition if any, of a full
run of `main` over a configuration. -/
def runAll (cfg : ResourceConfig) : List (String × List Alloc) × Option RunError :=
  runGo cfg cfg.workers

/-- Per-request explicit classification, stated directly from the spec's
three-way rule: an eligible request is explicit with its per-worker
resources entry when one is keyed by the worker's name, else explicit
(global) with the resources' own cpu/memory fields when the `cpuset` field
is present directly; `none` otherwise. -/
def specExplicitOf (workerName : String) (p : String × CrsConfig) :
    Option (String × ResEntry) :=
  if workerName ∈ p.2.workers then
    match p.2.resources with
    | some r =>
      match r.perWorker.lookup workerName with
      | some e => some (p.1, e)
      | none => if r.cpuset.isSome then some (p.1, ⟨r.cpuset, r.memory⟩) else none
    | none => none
  else none

/-- Per-request auto classification: eligible, with neither a per-worker
entry nor a direct `cpuset` field. -/
def specAutoOf (workerName : String) (p : String × CrsConfig) : Option String :=
  if workerName ∈ p.2.workers then
    match p.2.resources with
    | some r =>
      match r.perWorker.lookup workerName with
      | some _ => none
      | none => if r.cpuset.isSome then none else some p.1
    | none => some p.1
  else none

/-- C4: the classifier emits exactly the two order-preserving `filterMap`s
of the per-request rule; every eligible request lands in exactly one class
and every ineligible request in none. -/
theorem c4_classifier (workerName : String) (l : List (String × CrsConfig)) :
    classifyCrs workerName l =
      (l.filterMap (specExplicitOf workerName), l.filterMap (specAutoOf workerName))
    ∧ (∀ p : String × CrsConfig,
        ¬((specExplicitOf workerName p).isSome ∧ (specAutoOf workerName p).isSome))
    ∧ (∀ p : String × CrsConfig, workerName ∉ p.2.workers →
        specExplicitOf workerName p = none ∧ specAutoOf workerName p = none)
    ∧ (∀ p : String × CrsConfig, workerName ∈ p.2.workers →
        (specExplicitOf workerName p).isSome ∨ (specAutoOf workerName p).isSome) := by
  refine ⟨?_, ?_, ?_, ?_⟩
  · induction l with
    | nil => rfl
    | cons q rest ih =>
      obtain ⟨nm, cc⟩ := q
      by_cases hw : workerName ∈ cc.workers
      · rcases hres : cc.resources with _ | r
        · simp [classifyCrs, List.filterMap_cons, specExplicitOf, specAutoOf, hw, hres, ih]
        · rcases hlk : r.perWorker.lookup workerName with _ | e
          · by_cases hcs : r.cpuset.isSome
            · simp [classifyCrs, List.filterMap_cons, specExplicitOf, specAutoOf,
                hw, hres, hlk, hcs, ih]
            · simp [classifyCrs, List.filterMap_cons, specExplicitOf, specAutoOf,
                hw, hres, hlk, hcs, ih]
          · simp [classifyCrs, List.filterMap_cons, specExplicitOf, specAutoOf,
              hw, hres, hlk, ih]
      · simp [classifyCrs, List.filterMap_cons, specExplicitOf, specAutoOf, hw, ih]
  · intro p
    by_cases hw : workerName ∈ p.2.workers
    · rcases hres : p.2.resources with _ | r
      · simp [specExplicitOf, specAutoOf, hw, hres]
      · rcases hlk : r.perWorker.lookup workerName with _ | e
        · by_cases hcs : r.cpuset.isSome
          · simp [specExplicitOf, specAutoOf, hw, hres, hlk, hcs]
          · simp [specExplicitOf, specAutoOf, hw, hres, hlk, hcs]
        · simp [specExplicitOf, specAutoOf, hw, hres, hlk]
    · simp [specExplicitOf, specAutoOf, hw]
  · intro p hw
    simp [specExplicitOf, specAutoOf, hw]
  · intro p hw
    rcases hres : p.2.resources with _ | r
    · simp [specExplicitOf, specAutoOf, hw, hres]
    · rcases hlk : r.perWorker.lookup workerName with _ | e
      · by_cases hcs : r.cpuset.isSome
        · simp [specExplicitOf, specAutoOf, hw, hres, hlk, hcs]
        · simp [specExplicitOf, specAutoOf, hw, hres, hlk, hcs]
      · simp [specExplicitOf, specAutoOf, hw, hres, hlk]

/-- Sample crs mapping: one per-worker explicit, one global explicit, one
auto, one ineligible. -/
abbrev sampleCrsList : List (String × CrsConfig) :=
  [("e1", ⟨[("w1")], some ⟨[(("w1"), ⟨some defaultCpu, none⟩)], none, none⟩⟩),
   ("g1", ⟨[("w1")], some ⟨[], some (("4-5").toList), some (("1G").toList)⟩⟩),
   ("a1", ⟨[("w1")], none⟩),
   ("x1", ⟨[("w2")], none⟩)]

theorem c4_classifier_witness :
    classifyCrs ("w1") sampleCrsList =
      (sampleCrsList.filterMap (specExplicitOf ("w1")),
       sampleCrsList.filterMap (specAutoOf ("w1")))
    ∧ (specExplicitOf ("w1") (("x1"), ⟨[("w2")], none⟩) = none ∧
       specAutoOf ("w1") (("x1"), ⟨[("w2")], none⟩) = none)
    ∧ ((specExplicitOf ("w1") (("a1"), ⟨[("w1")], none⟩)).isSome ∨
       (specAutoOf ("w1") (("a1"), ⟨[("w1")], none⟩)).isSome) :=
  ⟨(c4_classifier ("w1") sampleCrsList).1,
   (c4_classifier ("w1") sampleCrsList).2.2.1 _ (by decide),
   (c4_classifier ("w1") sampleCrsList).2.2.2 _ (by decide)⟩

/-- Concrete configuration for C10: one explicit per-worker entry that
specifies only `memory: "2G"`. -/
abbrev cfgC10 : ResourceConfig :=
  ⟨[("crs1", ⟨[("w1")], some ⟨[(("w1"), ⟨none, some (("2G").toList)⟩)], none, none⟩⟩)],
   [(("w1"), ⟨some (("0-7").toList), some (("8G").toList)⟩)]⟩

/-- C10: an explicit resource entry missing `cpuset` (resp. `memory`)
silently defaults it to `"0-3"` (resp. `"4G"`): validation treats the entry
exactly as if the default were written, and the per-worker entry
`{memory: "2G"}` concretely yields an explicit allocation of cores 0-3 and
2048 MB rather than being rejected or auto-divided. -/
theorem c10_explicit_defaults :
    (∀ (w : String) (wc : List Int) (ws : Str) (st : ExpState) (nm : String)
        (mem : Option Str),
      expStep w wc ws st nm ⟨none, mem⟩ = expStep w wc ws st nm ⟨some defaultCpu, mem⟩)
    ∧ (∀ (w : String) (wc : List Int) (ws : Str) (st : ExpState) (nm : String)
        (cs : Option Str),
      expStep w wc ws st nm ⟨cs, none⟩ = expStep w wc ws st nm ⟨cs, some defaultMem⟩)
    ∧ get_crs_for_worker ("w1") cfgC10 = .ok [⟨"crs1", [0, 1, 2, 3], 2048, "runner", "cpus"⟩] :=
  ⟨fun _ _ _ _ _ _ => rfl, fun _ _ _ _ _ _ => rfl, by rfl⟩

theorem flatten_slices_take (l : List Int) (c n : Nat) :
    ∀ k, k ≤ n - 1 →
      ((List.range k).map (fun i => autoSlice l c n i)).flatten = l.take (k * c) := by
  intro k
  induction k with
  | zero => intro _; simp
  | succ j ih =>
    intro hk
    rw [List.range_succ, List.map_append, List.flatten_append, ih (by omega)]
    simp only [List.map_cons, List.map_nil, List.flatten_cons, List.flatten_nil, List.append_nil]
    rw [show autoSlice l c n j = (l.drop (j * c)).take c from by
      unfold autoSlice; rw [if_neg (by omega)]]
    rw [show (j + 1) * c = j * c + c from by ring, List.take_add]

theorem flatten_slices (l : List Int) (n : Nat) (h1 : 1 ≤ n) :
    ((List.range n).map (fun i => autoSlice l (l.length / n) n i)).flatten = l := by
  have hr := List.range_succ (n - 1)
  rw [show (n - 1).succ = n from by omega] at hr
  rw [hr, List.map_append, List.flatten_append, flatten_slices_take l (l.length / n) n (n - 1)
    le_rfl]
  simp only [List.map_cons, List.map_nil, List.flatten_cons, List.flatten_nil, List.append_nil]
  rw [show autoSlice l (l.length / n) n (n - 1) = l.drop ((n - 1) * (l.length / n)) from by
    unfold autoSlice; rw [if_pos rfl]]
  exact List.take_append_drop _ l

theorem sum_autoMems_take (remMem m : Int) (n : Nat) :
    ∀ k, k ≤ n - 1 →
      ((List.range k).map (fun i => autoMemOf remMem m n i)).sum = m * (k : Int) := by
  intro k
  induction k with
  | zero => intro _; simp
  | succ j ih =>
    intro hk
    rw [List.range_succ, List.map_append, List.sum_append, ih (by omega)]
    simp only [List.map_cons, List.map_nil, List.sum_cons, List.sum_nil]
    rw [show autoMemOf remMem m n j = m from by unfold autoMemOf; rw [if_neg (by omega)]]
    push_cast
    ring

theorem sum_autoMems (remMem m : Int) (n : Nat) (h1 : 1 ≤ n) :
    ((List.range n).map (fun i => autoMemOf remMem m n i)).sum = remMem := by
  have hr := List.range_succ (n - 1)
  rw [show (n - 1).succ = n from by omega] at hr
  rw [hr, List.map_append, List.sum_append, sum_autoMems_take remMem m n (n - 1) le_rfl]
  simp only [List.map_cons, List.map_nil, List.sum_cons, List.sum_nil, List.append_nil]
  rw [show autoMemOf remMem m n (n - 1) = remMem - m * ((n - 1 : Nat) : Int) from by
    unfold autoMemOf; rw [if_pos rfl]]
  ring

/-- The auto allocations, rewritten as a map over the index range. -/
theorem autoDivide_ok (w : String) (remaining : List Int) (remMem : Int)
    (names : List String) (hne : names ≠ [])
    (hc : names.length ≤ remaining.length)
    (hm : (names.length : Int) * 512 ≤ remMem) :
    autoDivide w remaining remMem names =
      .ok (names.enum.map (fun p =>
        ⟨p.2, autoSlice remaining (remaining.length / names.length) names.length p.1,
          autoMemOf remMem (remMem / (names.length : Int)) names.length p.1, "runner",
          "cpuset"⟩)) := by
  have hne' : names.isEmpty = false := by simpa [List.isEmpty_iff] using hne
  simp only [autoDivide, hne', Bool.false_eq_true, if_false]
  rw [if_neg (by omega), if_neg (by omega)]

/-- C6: with `n ≥ 1` auto names and both preconditions met, auto-division
emits one allocation per name, in order; index `i` receives cpu slice
`remaining[i*c:(i+1)*c]` with `c = len(remaining)//n`, except the last
index, which takes every core from `(n-1)*c` to the end; memory analogously
with `m = remMem//n`, the last index taking `remMem - m*(n-1)`; and
consequently the cpu slices concatenate to exactly `remaining` and the
memory amounts sum to exactly `remMem`. -/
theorem c6_auto_division (w : String) (remaining : List Int) (remMem : Int)
    (names : List String) (hne : names ≠ [])
    (hc : names.length ≤ remaining.length)
    (hm : (names.length : Int) * 512 ≤ remMem) :
    ∃ autos, autoDivide w remaining remMem names = .ok autos ∧
      autos.length = names.length ∧
      (∀ (i : Nat) (hi : i < names.length),
        autos[i]? = some ⟨names.get ⟨i, hi⟩,
          (if i = names.length - 1 then
            remaining.drop (i * (remaining.length / names.length))
          else
            (remaining.drop (i * (remaining.length / names.length))).take
              (remaining.length / names.length)),
          (if i = names.length - 1 then
            remMem - (remMem / (names.length : Int)) * ((names.length - 1 : Nat) : Int)
          else remMem / (names.length : Int)), "runner", "cpuset"⟩) ∧
      (autos.map Alloc.cpus).flatten = remaining ∧
      (autos.map Alloc.memoryMB).sum = remMem := by
  have hn1 : 1 ≤ names.length := List.length_pos.mpr hne
  refine ⟨_, autoDivide_ok w remaining remMem names hne hc hm, ?_, ?_, ?_, ?_⟩
  · rw [List.length_map, List.enum_length]
  · intro i hi
    rw [List.getElem?_map, List.getElem?_enum, List.getElem?_eq_getElem (by simpa using hi)]
    simp only [Option.map_some']
    rfl
  · rw [List.map_map]
    show (List.map ((fun i =>
        autoSlice remaining (remaining.length / names.length) names.length i) ∘ Prod.fst)
      names.enum).flatten = remaining
    rw [← List.map_map, List.enum_map_fst]
    exact flatten_slices remaining names.length hn1
  · rw [List.map_map]
    show (List.map ((fun i =>
        autoMemOf remMem (remMem / (names.length : Int)) names.length i) ∘ Prod.fst)
      names.enum).sum = remMem
    rw [← List.map_map, List.enum_map_fst]
    exact sum_autoMems remMem (remMem / (names.length : Int)) names.length hn1

theorem c6_auto_division_witness :
    (["a1", "a2", "a3"] : List String) ≠ [] ∧
    ∃ autos, autoDivide ("w1") [4, 5, 6, 7] 3072 ["a1", "a2", "a3"] = .ok autos ∧
      autos.length = (["a1", "a2", "a3"] : List String).length ∧
      (∀ (i : Nat) (hi : i < (["a1", "a2", "a3"] : List String).length),
        autos[i]? = some ⟨(["a1", "a2", "a3"] : List String).get ⟨i, hi⟩,
          (if i = (["a1", "a2", "a3"] : List String).length - 1 then
            ([4, 5, 6, 7] : List Int).drop
              (i * (([4, 5, 6, 7] : List Int).length / (["a1", "a2", "a3"] : List String).length))
          else
            (([4, 5, 6, 7] : List Int).drop
              (i * (([4, 5, 6, 7] : List Int).length /
                (["a1", "a2", "a3"] : List String).length))).take
              (([4, 5, 6, 7] : List Int).length / (["a1", "a2", "a3"] : List String).length)),
          (if i = (["a1", "a2", "a3"] : List String).length - 1 then
            3072 - ((3072 : Int) / ((["a1", "a2", "a3"] : List String).length : Int)) *
              (((["a1", "a2", "a3"] : List String).length - 1 : Nat) : Int)
          else (3072 : Int) / ((["a1", "a2", "a3"] : List String).length : Int)), "runner",
          "cpuset"⟩) ∧
      (autos.map Alloc.cpus).flatten = [4, 5, 6, 7] ∧
      (autos.map Alloc.memoryMB).sum = 3072 :=
  ⟨by decide,
   c6_auto_division ("w1") [4, 5, 6, 7] 3072 ["a1", "a2", "a3"] (by decide) (by decide)
     (by decide)⟩

/-- Concrete configuration for C7: a worker with the default 4 cores and a
2048 MB budget, one explicit CRS claiming core 0 and 1024 MB, and three
auto CRS. -/
abbrev cfgC7 : ResourceConfig :=
  ⟨[("e1", ⟨[("w1")],
      some ⟨[(("w1"), ⟨some (("0").toList), some (("1G").toList)⟩)], none, none⟩⟩),
    ("a1", ⟨[("w1")], none⟩),
    ("a2", ⟨[("w1")], none⟩),
    ("a3", ⟨[("w1")], none⟩)],
   [(("w1"), ⟨none, some (("2G").toList)⟩)]⟩

/-- C7: for a nonempty auto list, auto-division fails exactly when fewer
remaining cores than auto CRS exist or less than 512 MB per auto CRS
remains (cores checked first); in particular a worker with a 2048 MB
budget, an explicit 1024 MB claim and three auto CRS fails with the
insufficient-memory error (1024 < 3·512). -/
theorem c7_insufficient_iff :
    (∀ (w : String) (remaining : List Int) (remMem : Int) (names : List String),
      names ≠ [] →
      (((∃ e, autoDivide w remaining remMem names = .error e) ↔
          (remaining.length < names.length ∨ remMem < (names.length : Int) * 512))
        ∧ (remaining.length < names.length →
            autoDivide w remaining remMem names =
              .error (.insufficientCpus w names.length remaining.length))
        ∧ (¬ remaining.length < names.length → remMem < (names.length : Int) * 512 →
            autoDivide w remaining remMem names =
              .error (.insufficientMemory w remMem names.length))))
    ∧ get_crs_for_worker ("w1") cfgC7 = .error (.insufficientMemory ("w1") 1024 3) := by
  refine ⟨?_, by rfl⟩
  intro w remaining remMem names hne
  have hne' : names.isEmpty = false := by simpa [List.isEmpty_iff] using hne
  simp only [autoDivide, hne', Bool.false_eq_true, if_false]
  by_cases h1 : remaining.length < names.length
  · rw [if_pos h1]
    refine ⟨⟨fun _ => Or.inl h1, fun _ => ⟨_, rfl⟩⟩, fun _ => rfl, fun hn _ => absurd h1 hn⟩
  · rw [if_neg h1]
    by_cases h2 : remMem < (names.length : Int) * 512
    · rw [if_pos h2]
      refine ⟨⟨fun _ => Or.inr h2, fun _ => ⟨_, rfl⟩⟩, fun hl => absurd hl h1, fun _ _ => rfl⟩
    · rw [if_neg h2]
      refine ⟨⟨?_, ?_⟩, fun hl => absurd hl h1, fun _ hl => absurd hl h2⟩
      · rintro ⟨e, he⟩
        exact absurd he (by simp)
      · intro hor
        rcases hor with ho | ho
        · exact absurd ho h1
        · exact absurd ho h2

theorem c7_insufficient_iff_witness :
    (["a1"] : List String) ≠ [] ∧
    (((∃ e, autoDivide ("w1") [] 4096 ["a1"] = .error e) ↔
        (([] : List Int).length < (["a1"] : List String).length ∨
          (4096 : Int) < ((["a1"] : List String).length : Int) * 512))
      ∧ (([] : List Int).length < (["a1"] : List String).length →
          autoDivide ("w1") [] 4096 ["a1"] =
            .error (.insufficientCpus ("w1") (["a1"] : List String).length
              ([] : List Int).length))
      ∧ (¬ ([] : List Int).length < (["a1"] : List String).length →
          (4096 : Int) < ((["a1"] : List String).length : Int) * 512 →
          autoDivide ("w1") [] 4096 ["a1"] =
            .error (.insufficientMemory ("w1") 4096 (["a1"] : List String).length))) :=
  ⟨by decide, c7_insufficient_iff.1 ("w1") [] 4096 ["a1"] (by decide)⟩

theorem all_mem_of_subset {lst wc : List Int} (h : lst ⊆ wc) :
    ¬ ((lst.all fun x => decide (x ∈ wc)) = false) := by
  rw [Bool.not_eq_false, List.all_eq_true]
  intro x hx
  exact decide_eq_true (h hx)

theorem processGo_append (w : String) (wc : List Int) (ws : Str) :
    ∀ (pre rest : List (String × ResEntry)) (st : ExpState),
      processGo w wc ws st (pre ++ rest) =
        match processGo w wc ws st pre with
        | .error e => .error e
        | .ok st2 => processGo w wc ws st2 rest := by
  intro pre
  induction pre with
  | nil => intro rest st; rfl
  | cons q pr ih =>
    intro rest st
    obtain ⟨nm, e⟩ := q
    rw [List.cons_append]
    simp only [processGo]
    rcases hs : expStep w wc ws st nm e with err | st2
    · rfl
    · exact ih rest st2

/-- One explicit entry behaves exactly as the spec's validator describes:
parse failures, out-of-range cores, conflicting cores, and on success the
accumulated state with the appended `"runner"` allocation. -/
theorem expStep_spec (w : String) (wc : List Int) (ws : Str) (st : ExpState)
    (nm : String) (e : ResEntry) :
    (parse_cpu_range (e.cpuset.getD defaultCpu) = none →
      expStep w wc ws st nm e = .error (.parseError (e.cpuset.getD defaultCpu)))
    ∧ (∀ lst mem, parse_cpu_range (e.cpuset.getD defaultCpu) = some lst →
        parse_memory_mb (e.memory.getD defaultMem) = some mem →
        ((¬ lst ⊆ wc →
          expStep w wc ws st nm e =
            .error (.outOfRange nm w (canonInts (lst.filter (fun x => decide (x ∉ wc)))) ws))
        ∧ (lst ⊆ wc → (∃ x ∈ lst, x ∈ st.used) →
          expStep w wc ws st nm e =
            .error (.conflict nm w (canonInts (lst.filter (fun x => decide (x ∈ st.used))))))
        ∧ (lst ⊆ wc → (∀ x ∈ lst, x ∉ st.used) →
          expStep w wc ws st nm e =
            .ok ⟨st.allocs ++ [⟨nm, lst, mem, "runner", "cpus"⟩], st.used ++ lst,
              st.usedMem + mem⟩))) := by
  constructor
  · intro hn
    unfold expStep
    rw [hn]
  · intro lst mem hcp hmm
    have hstep : expStep w wc ws st nm e =
        if (lst.all fun x => decide (x ∈ wc)) = false then
          .error (.outOfRange nm w (canonInts (lst.filter (fun x => decide (x ∉ wc)))) ws)
        else if lst.filter (fun x => decide (x ∈ st.used)) ≠ [] then
          .error (.conflict nm w (canonInts (lst.filter (fun x => decide (x ∈ st.used)))))
        else
          .ok ⟨st.allocs ++ [⟨nm, lst, mem, "runner", "cpus"⟩], st.used ++ lst, st.usedMem + mem⟩ := by
      unfold expStep
      rw [hcp, hmm]
    rw [hstep]
    refine ⟨?_, ?_, ?_⟩
    · intro hsub
      rw [if_pos (by simpa [List.all_eq_true, List.subset_def] using hsub)]
    · intro hsub hconf
      rw [if_neg (all_mem_of_subset hsub)]
      rw [if_pos (by simpa [ne_eq, List.filter_eq_nil] using hconf)]
    · intro hsub hdisj
      rw [if_neg (all_mem_of_subset hsub)]
      rw [if_neg (by simpa [ne_eq, List.filter_eq_nil] using hdisj)]

/-- C5 (amended): the validator processes the explicit list in order; with
the state accumulated over any prefix, the next entry fails out-of-range
(naming the offending cores) when its parsed cores leave the worker's set,
fails with a conflict error naming the offending cores and the claiming
CRS — not the previously accepted partner — when they intersect the cores
already claimed, and otherwise accumulates the claimed cores and memory and
appends an allocation with suffix `"runner"`; an error is the result of the
whole run regardless of the entries after it, so no partial allocation list
is emitted. -/
theorem c5_explicit_validation (w : String) (wc : List Int) (ws : Str)
    (pre post : List (String × ResEntry)) (nm : String) (e : ResEntry) (st : ExpState)
    (hpre : processGo w wc ws ⟨[], [], 0⟩ pre = .ok st) :
    (parse_cpu_range (e.cpuset.getD defaultCpu) = none →
      processGo w wc ws ⟨[], [], 0⟩ (pre ++ (nm, e) :: post) =
        .error (.parseError (e.cpuset.getD defaultCpu)))
    ∧ (∀ lst mem, parse_cpu_range (e.cpuset.getD defaultCpu) = some lst →
        parse_memory_mb (e.memory.getD defaultMem) = some mem →
        ((¬ lst ⊆ wc →
          processGo w wc ws ⟨[], [], 0⟩ (pre ++ (nm, e) :: post) =
            .error (.outOfRange nm w (canonInts (lst.filter (fun x => decide (x ∉ wc)))) ws))
        ∧ (lst ⊆ wc → (∃ x ∈ lst, x ∈ st.used) →
          processGo w wc ws ⟨[], [], 0⟩ (pre ++ (nm, e) :: post) =
            .error (.conflict nm w (canonInts (lst.filter (fun x => decide (x ∈ st.used))))))
        ∧ (lst ⊆ wc → (∀ x ∈ lst, x ∉ st.used) →
          processGo w wc ws ⟨[], [], 0⟩ (pre ++ (nm, e) :: post) =
            processGo w wc ws
              ⟨st.allocs ++ [⟨nm, lst, mem, "runner", "cpus"⟩], st.used ++ lst, st.usedMem + mem⟩
              post))) := by
  have key : ∀ r, expStep w wc ws st nm e = r →
      processGo w wc ws ⟨[], [], 0⟩ (pre ++ (nm, e) :: post) =
        match r with
        | .error er => .error er
        | .ok st2 => processGo w wc ws st2 post := by
    intro r hr
    rw [processGo_append w wc ws pre ((nm, e) :: post) ⟨[], [], 0⟩, hpre]
    simp only [processGo, hr]
  constructor
  · intro hn
    exact key _ ((expStep_spec w wc ws st nm e).1 hn)
  · intro lst mem hcp hmm
    obtain ⟨hout, hconf, hok⟩ := (expStep_spec w wc ws st nm e).2 lst mem hcp hmm
    refine ⟨?_, ?_, ?_⟩
    · intro hsub
      exact key _ (hout hsub)
    · intro hsub hc
      exact key _ (hconf hsub hc)
    · intro hsub hd
      exact key _ (hok hsub hd)

/-- Counterexample for C5 as originally stated: the conflict error value is
identical whether the previously accepted conflicting CRS was named
`"alpha"` or `"beta"` — the error names the claiming CRS and the offending
cores, but cannot name the conflicting pair. -/
theorem c5_conflict_counterexample :
    processGo ("w1") [0, 1, 2, 3] defaultCpu ⟨[], [], 0⟩
        [("alpha", ⟨some (("0-1").toList), some (("1G").toList)⟩),
         ("cx", ⟨some (("1-2").toList), some (("1G").toList)⟩)] =
      .error (.conflict ("cx") ("w1") [1])
    ∧ processGo ("w1") [0, 1, 2, 3] defaultCpu ⟨[], [], 0⟩
        [("beta", ⟨some (("0-1").toList), some (("1G").toList)⟩),
         ("cx", ⟨some (("1-2").toList), some (("1G").toList)⟩)] =
      .error (.conflict ("cx") ("w1") [1]) :=
  ⟨rfl, rfl⟩

theorem c5_explicit_validation_witness :
    processGo ("w1") [0, 1] defaultCpu ⟨[], [], 0⟩
        ([("p1", ⟨some (("0").toList), some (("1G").toList)⟩)] ++
          ("q1", ⟨some (("5").toList), some (("1G").toList)⟩) :: []) =
      .error (.outOfRange ("q1") ("w1") [5] defaultCpu) :=
  ((c5_explicit_validation ("w1") [0, 1] defaultCpu
      [("p1", ⟨some (("0").toList), some (("1G").toList)⟩)] []
      ("q1") ⟨some (("5").toList), some (("1G").toList)⟩
      ⟨[⟨"p1", [0], 1024, "runner", "cpus"⟩], [0], 1024⟩ (by rfl)).2
    [5] 1024 (by rfl) (by rfl)).1 (by decide)

/-- Concrete configuration for C9: worker `w1` auto-divides fine, worker
`w2` has an explicit CRS claiming core 9 outside its default `0-3` pool. -/
abbrev cfgC9 : ResourceConfig :=
  ⟨[("a1", ⟨[("w1")], none⟩),
    ("bad", ⟨[("w2")], some ⟨[(("w2"), ⟨some (("9").toList), none⟩)], none, none⟩⟩)],
   [(("w1"), ⟨none, none⟩), (("w2"), ⟨none, none⟩)]⟩

/-- Counterexample for C9 as originally stated: a fatal error while
processing a later worker does not retract the output already written for
earlier workers — `cfgC9` aborts on `w2` with `w1`'s compose file already
written. -/
theorem c9_no_output_counterexample :
    ¬ (∀ cfg : ResourceConfig, (runAll cfg).2.isSome → (runAll cfg).1 = []) := by
  intro h
  have h1 : (runAll cfgC9).1 = [] := h cfgC9 (by rfl)
  have h2 : (runAll cfgC9).1 =
      [(("w1"), [⟨"a1", [0, 1, 2, 3], 4096, "runner", "cpuset"⟩])] := by rfl
  rw [h2] at h1
  exact absurd h1 (by simp)

theorem runGo_split (cfg : ResourceConfig) :
    ∀ (pre : List (String × WorkerRes)) (w : String) (wr : WorkerRes)
      (rest : List (String × WorkerRes)) (er : RunError),
      (∀ p ∈ pre, ∃ pl, get_crs_for_worker p.1 cfg = .ok pl ∧
        pl.find? (fun a => a.cpusKey != "cpuset") = none) →
      runGo cfg ((w, wr) :: rest) = ([], some er) →
      runGo cfg (pre ++ (w, wr) :: rest) =
        (pre.filterMap (fun p =>
          match get_crs_for_worker p.1 cfg with
          | .ok [] => none
          | .ok pl => some (p.1, pl)
          | .error _ => none), some er) := by
  intro pre
  induction pre with
  | nil =>
    intro w wr rest er _ habort
    rw [List.nil_append, habort, List.filterMap_nil]
  | cons p pr ih =>
    intro w wr rest er hpre habort
    obtain ⟨pn, pwr⟩ := p
    obtain ⟨pl, hpl, hkey⟩ := hpre (pn, pwr) (by simp)
    rw [List.cons_append]
    simp only [runGo, hpl, List.filterMap_cons]
    have ihr := ih w wr rest er (fun q hq => hpre q (List.mem_cons_of_mem _ hq)) habort
    rcases pl with _ | ⟨a, pl2⟩
    · simp only [hpl]
      exact ihr
    · simp only [hkey, hpl, ihr]

/-- C9 (amended): once the run reaches a worker whose processing raises a
fatal planning error, the entire remaining run aborts — nothing is
produced for the failing worker or any worker after it — but the compose
files of the earlier workers have already been written, their output being
exactly the nonempty plans in configuration order; reaching that worker at
all requires every earlier nonempty plan to consist of auto allocations
only, because a plan containing an explicit allocation itself aborts the
run with an uncaught `KeyError` (line 394 reads `crs['cpuset']` while
explicit allocations are keyed `'cpus'`, line 209) before its own file is
written. -/
theorem c9_abort_semantics (cfg : ResourceConfig) (pre : List (String × WorkerRes))
    (w : String) (wr : WorkerRes) (rest : List (String × WorkerRes))
    (hw : cfg.workers = pre ++ (w, wr) :: rest)
    (hpre : ∀ p ∈ pre, ∃ pl, get_crs_for_worker p.1 cfg = .ok pl ∧
      pl.find? (fun a => a.cpusKey != "cpuset") = none) :
    (∀ e : CrsError, get_crs_for_worker w cfg = .error e →
      runAll cfg =
        (pre.filterMap (fun p =>
          match get_crs_for_worker p.1 cfg with
          | .ok [] => none
          | .ok pl => some (p.1, pl)
          | .error _ => none), some (.fatal e)))
    ∧ (∀ (pl : List Alloc) (a : Alloc), get_crs_for_worker w cfg = .ok pl →
        pl.find? (fun x => x.cpusKey != "cpuset") = some a →
        runAll cfg =
          (pre.filterMap (fun p =>
            match get_crs_for_worker p.1 cfg with
            | .ok [] => none
            | .ok pl => some (p.1, pl)
            | .error _ => none), some (.keyError a.name))) := by
  constructor
  · intro e herr
    unfold runAll
    rw [hw]
    refine runGo_split cfg pre w wr rest (.fatal e) hpre ?_
    simp only [runGo, herr]
  · intro pl a hok hfind
    unfold runAll
    rw [hw]
    refine runGo_split cfg pre w wr rest (.keyError a.name) hpre ?_
    rcases pl with _ | ⟨b, pl2⟩
    · simp at hfind
    · simp only [runGo, hok, hfind]

theorem c9_abort_semantics_witness :
    runAll cfgC9 =
      ([(("w1"), [⟨"a1", [0, 1, 2, 3], 4096, "runner", "cpuset"⟩])],
       some (.fatal (.outOfRange ("bad") ("w2") [9] defaultCpu))) :=
  (c9_abort_semantics cfgC9 [(("w1"), ⟨none, none⟩)] ("w2") ⟨none, none⟩ []
    (by rfl)
    (fun p hp => by
      rcases List.mem_singleton.mp hp with rfl
      exact ⟨[⟨"a1", [0, 1, 2, 3], 4096, "runner", "cpuset"⟩], by rfl, by rfl⟩)).1
    (.outOfRange ("bad") ("w2") [9] defaultCpu) (by rfl)

example : runAll cfgC10 = ([], some (.keyError ("crs1"))) := by rfl

theorem expStep_ok_inversion {w : String} {wc : List Int} {ws : Str} {st : ExpState}
    {nm : String} {e : ResEntry} {st2 : ExpState}
    (h : expStep w wc ws st nm e = .ok st2) :
    ∃ lst mem, parse_cpu_range (e.cpuset.getD defaultCpu) = some lst ∧
      parse_memory_mb (e.memory.getD defaultMem) = some mem ∧
      lst ⊆ wc ∧ (∀ x ∈ lst, x ∉ st.used) ∧
      st2 = ⟨st.allocs ++ [⟨nm, lst, mem, "runner", "cpus"⟩], st.used ++ lst, st.usedMem + mem⟩ := by
  unfold expStep at h
  split at h
  · exact absurd h (by simp)
  · next lst hcp =>
    split at h
    · exact absurd h (by simp)
    · next mem hmm =>
      split at h
      · exact absurd h (by simp)
      · next hall =>
        split at h
        · exact absurd h (by simp)
        · next hfil =>
          refine ⟨lst, mem, hcp, hmm, ?_, ?_, by injection h with h2; exact h2.symm⟩
          · intro x hx
            have hsub2 : ∀ y ∈ lst, y ∈ wc := by simpa using hall
            exact hsub2 x hx
          · intro x hx hxu
            rw [ne_eq, not_not] at hfil
            have := (List.filter_eq_nil.mp hfil) x hx
            simp at this
            exact this hxu

/-- Invariant carried by the explicit-validation state: every emitted
allocation stays within the worker's cores, allocations are pairwise
disjoint, every allocation's cores are inside the used set, and the used
set stays within the worker's cores. -/
def ExpInv (wc : List Int) (st : ExpState) : Prop :=
  (∀ a ∈ st.allocs, a.cpus ⊆ wc)
  ∧ st.allocs.Pairwise (fun a b => a.cpus.Disjoint b.cpus)
  ∧ (∀ a ∈ st.allocs, a.cpus ⊆ st.used)
  ∧ st.used ⊆ wc

theorem processGo_inv (w : String) (wc : List Int) (ws : Str) :
    ∀ (entries : List (String × ResEntry)) (st st' : ExpState),
      ExpInv wc st → processGo w wc ws st entries = .ok st' →
      ExpInv wc st' ∧ st.used ⊆ st'.used := by
  intro entries
  induction entries with
  | nil =>
    intro st st' hinv h
    simp only [processGo] at h
    injection h with h2
    subst h2
    exact ⟨hinv, fun x hx => hx⟩
  | cons q rest ih =>
    intro st st' hinv h
    obtain ⟨nm, e⟩ := q
    simp only [processGo] at h
    split at h
    · exact absurd h (by simp)
    · next st2 hstep =>
      obtain ⟨lst, mem, _, _, hsub, hdisj, hst2⟩ := expStep_ok_inversion hstep
      obtain ⟨i1, i2, i3, i4⟩ := hinv
      have hinv2 : ExpInv wc st2 := by
        subst hst2
        refine ⟨?_, ?_, ?_, ?_⟩
        · intro a ha
          rcases List.mem_append.mp ha with h1 | h1
          · exact i1 a h1
          · rw [List.mem_singleton.mp h1]
            exact hsub
        · rw [List.pairwise_append]
          refine ⟨i2, by simp, ?_⟩
          intro a ha b hb x hxa hxb
          rw [List.mem_singleton.mp hb] at hxb
          exact hdisj x hxb (i3 a ha hxa)
        · intro a ha
          rcases List.mem_append.mp ha with h1 | h1
          · exact fun x hx => List.mem_append_left _ (i3 a h1 hx)
          · rw [List.mem_singleton.mp h1]
            exact fun x hx => List.mem_append_right _ hx
        · intro x hx
          rcases List.mem_append.mp hx with h1 | h1
          · exact i4 h1
          · exact hsub h1
      obtain ⟨hinv', hused⟩ := ih st2 st' hinv2 h
      refine ⟨hinv', fun x hx => hused ?_⟩
      rw [show st2.used = st.used ++ lst from by rw [hst2]]
      exact List.mem_append_left _ hx

theorem autoDivide_ok_inversion {w : String} {remaining : List Int} {remMem : Int}
    {names : List String} {autos : List Alloc}
    (h : autoDivide w remaining remMem names = .ok autos) :
    (names = [] ∧ autos = []) ∨
    (names ≠ [] ∧ names.length ≤ remaining.length ∧ (names.length : Int) * 512 ≤ remMem ∧
      autos = names.enum.map (fun p =>
        ⟨p.2, autoSlice remaining (remaining.length / names.length) names.length p.1,
          autoMemOf remMem (remMem / (names.length : Int)) names.length p.1, "runner",
          "cpuset"⟩)) := by
  unfold autoDivide at h
  dsimp only at h
  split at h
  · next he =>
    left
    refine ⟨by simpa [List.isEmpty_iff] using he, ?_⟩
    injection h with h2
    exact h2.symm
  · next he =>
    split at h
    · exact absurd h (by simp)
    · next h1 =>
      split at h
      · exact absurd h (by simp)
      · next h2 =>
        right
        refine ⟨by simpa [List.isEmpty_iff] using he, by omega, by omega, ?_⟩
        injection h with h3
        exact h3.symm

theorem autoSlice_subset (remaining : List Int) (c n i : Nat) :
    autoSlice remaining c n i ⊆ remaining := by
  unfold autoSlice
  split
  · exact List.drop_subset _ _
  · exact fun x hx => List.drop_subset _ _ ((List.take_subset _ _) hx)

theorem autoSlice_length (remaining : List Int) (n i : Nat) (hn : 1 ≤ n)
    (hlen : n ≤ remaining.length) (hi : i < n) :
    1 ≤ (autoSlice remaining (remaining.length / n) n i).length := by
  have hc1 : 1 ≤ remaining.length / n := (Nat.one_le_div_iff (by omega)).mpr hlen
  have hcn : remaining.length / n * n ≤ remaining.length := Nat.div_mul_le_self _ _
  unfold autoSlice
  split
  · next hieq =>
    subst hieq
    rw [List.length_drop]
    have heq : (n - 1) * (remaining.length / n) + remaining.length / n =
        remaining.length / n * n := by
      cases n with
      | zero => exact absurd hn (by omega)
      | succ k =>
        simp only [Nat.succ_sub_one]
        ring
    refine Nat.le_sub_of_add_le ?_
    calc 1 + (n - 1) * (remaining.length / n)
        ≤ remaining.length / n + (n - 1) * (remaining.length / n) :=
          Nat.add_le_add_right hc1 _
      _ = (n - 1) * (remaining.length / n) + remaining.length / n := Nat.add_comm _ _
      _ = remaining.length / n * n := heq
      _ ≤ remaining.length := hcn
  · next hieq =>
    rw [List.length_take, List.length_drop]
    refine le_min_iff.mpr ⟨hc1, Nat.le_sub_of_add_le ?_⟩
    calc 1 + i * (remaining.length / n)
        ≤ remaining.length / n + i * (remaining.length / n) := Nat.add_le_add_right hc1 _
      _ = (i + 1) * (remaining.length / n) := by ring
      _ ≤ n * (remaining.length / n) := Nat.mul_le_mul_right _ hi
      _ = remaining.length / n * n := Nat.mul_comm _ _
      _ ≤ remaining.length := hcn

theorem autoMemOf_min (remMem : Int) (n i : Nat) (hn : 1 ≤ n) (hi : i < n)
    (hm : (n : Int) * 512 ≤ remMem) :
    512 ≤ autoMemOf remMem (remMem / (n : Int)) n i := by
  have hnpos : (0 : Int) < (n : Int) := by exact_mod_cast hn
  have hm512 : (512 : Int) ≤ remMem / (n : Int) := by
    rw [Int.le_ediv_iff_mul_le hnpos]
    linarith [hm]
  unfold autoMemOf
  split
  · have hdm : remMem / (n : Int) * (n : Int) ≤ remMem :=
      Int.ediv_mul_le remMem (by omega)
    have hcast : ((n - 1 : Nat) : Int) = (n : Int) - 1 := by
      rw [Nat.cast_sub hn, Nat.cast_one]
    rw [hcast]
    have hexp : remMem / (n : Int) * ((n : Int) - 1) =
        remMem / (n : Int) * (n : Int) - remMem / (n : Int) := by ring
    rw [hexp]
    linarith [hdm, hm512]
  · exact hm512

theorem autoSlice_disjoint {remaining : List Int} {c n i j : Nat} (hnd : remaining.Nodup)
    (hij : i < j) (hj : j < n) :
    (autoSlice remaining c n i).Disjoint (autoSlice remaining c n j) := by
  have hi_ne : i ≠ n - 1 := by omega
  have hsub_i : autoSlice remaining c n i ⊆ remaining.take ((i + 1) * c) := by
    unfold autoSlice
    rw [if_neg hi_ne]
    intro x hx
    rw [show (i + 1) * c = i * c + c from by ring, List.take_add]
    exact List.mem_append_right _ hx
  have hsub_j : autoSlice remaining c n j ⊆ remaining.drop (j * c) := by
    unfold autoSlice
    split
    · exact fun x hx => hx
    · exact List.take_subset _ _
  have hdj := List.disjoint_take_drop hnd
    (show (i + 1) * c ≤ j * c from Nat.mul_le_mul_right _ (by omega))
  exact fun x hxi hxj => hdj (hsub_i hxi) (hsub_j hxj)

theorem autoDivide_facts {w : String} {remaining : List Int} {remMem : Int}
    {names : List String} {autos : List Alloc} (hnd : remaining.Nodup)
    (h : autoDivide w remaining remMem names = .ok autos) :
    (∀ a ∈ autos, a.cpus ⊆ remaining ∧ 1 ≤ a.cpus.length ∧ 512 ≤ a.memoryMB)
    ∧ autos.Pairwise (fun a b => a.cpus.Disjoint b.cpus) := by
  rcases autoDivide_ok_inversion h with ⟨_, rfl⟩ | ⟨hne, hlen, hmem, rfl⟩
  · exact ⟨by simp, by simp⟩
  · have hn1 : 1 ≤ names.length := List.length_pos.mpr hne
    constructor
    · intro a ha
      obtain ⟨p, hp, rfl⟩ := List.mem_map.mp ha
      have hpi : p.1 < names.length := by
        have hmem2 : p.1 ∈ List.range names.length := by
          rw [← List.enum_map_fst]
          exact List.mem_map_of_mem _ hp
        exact List.mem_range.mp hmem2
      exact ⟨autoSlice_subset _ _ _ _,
        autoSlice_length remaining names.length p.1 hn1 hlen hpi,
        autoMemOf_min remMem names.length p.1 hn1 hpi hmem⟩
    · rw [List.pairwise_iff_get]
      intro a b hab
      have hb2 : (b : Nat) < names.length := by
        have hbl := b.isLt
        simpa [List.length_map, List.enum_length] using hbl
      rw [List.get_map, List.get_map, List.get_enum, List.get_enum]
      exact autoSlice_disjoint hnd hab hb2

/-- C8: for every worker whose plan is produced without error, every
allocation's cpu set is a subset of the worker's cpu set, the cpu sets of
all allocations for the worker are pairwise disjoint, and — the plan being
the explicit allocations followed by the auto-divided ones — every
auto-divided allocation receives at least 1 core and at least 512 MB. -/
theorem c8_plan_invariants (w : String) (cfg : ResourceConfig) (plan : List Alloc)
    (hok : get_crs_for_worker w cfg = .ok plan) :
    (∀ a ∈ plan, a.cpus ⊆ workerAllCpus cfg w)
    ∧ plan.Pairwise (fun a b => a.cpus.Disjoint b.cpus)
    ∧ ∃ (exps autos : List Alloc) (st : ExpState) (wmem : Int),
        plan = exps ++ autos ∧
        parse_memory_mb (workerMemSpec cfg w) = some wmem ∧
        processGo w (workerAllCpus cfg w) (workerCpuSpec cfg w) ⟨[], [], 0⟩
          (classifyCrs w cfg.crs).1 = .ok st ∧
        st.allocs = exps ∧
        autoDivide w
          (List.insertionSort (fun a b => a ≤ b)
            ((workerAllCpus cfg w).filter (fun x => decide (x ∉ st.used))))
          (wmem - st.usedMem) (classifyCrs w cfg.crs).2 = .ok autos ∧
        (∀ a ∈ autos, 1 ≤ a.cpus.length ∧ 512 ≤ a.memoryMB) := by
  unfold get_crs_for_worker at hok
  split at hok
  · exact absurd hok (by simp)
  · next wcl hcp =>
    split at hok
    · exact absurd hok (by simp)
    · next wmem hmm =>
      have hw_eq : workerAllCpus cfg w = wcl.dedup := by
        unfold workerAllCpus
        rw [hcp]
        rfl
      dsimp only at hok
      split at hok
      · next hcl =>
        injection hok with h2
        subst h2
        refine ⟨by simp, by simp, [], [], ⟨[], [], 0⟩, wmem, by simp, hmm, ?_, rfl, ?_, by simp⟩
        · rw [hcl.1]
          rfl
        · rw [hcl.2]
          rfl
      · next hcl =>
        split at hok
        · exact absurd hok (by simp)
        · next st hpg =>
          split at hok
          · exact absurd hok (by simp)
          · next autos had =>
            injection hok with h2
            subst h2
            rw [← hw_eq] at hpg had
            have hinv0 : ExpInv (workerAllCpus cfg w) ⟨[], [], 0⟩ :=
              ⟨by simp, by simp, by simp, by simp⟩
            obtain ⟨⟨i1, i2, i3, i4⟩, _⟩ := processGo_inv w (workerAllCpus cfg w)
              (workerCpuSpec cfg w) (classifyCrs w cfg.crs).1 ⟨[], [], 0⟩ st hinv0 hpg
            set remaining := List.insertionSort (fun a b : Int => a ≤ b)
              ((workerAllCpus cfg w).filter (fun x => decide (x ∉ st.used))) with hrem
            have hnodup : remaining.Nodup := by
              rw [hrem]
              exact ((List.perm_insertionSort _ _).nodup_iff).mpr
                (List.Nodup.filter _ (by rw [hw_eq]; exact List.nodup_dedup wcl))
            have hremmem : ∀ x ∈ remaining, x ∈ workerAllCpus cfg w ∧ x ∉ st.used := by
              intro x hx
              rw [hrem] at hx
              have hx2 := (List.perm_insertionSort _ _).mem_iff.mp hx
              rcases List.mem_filter.mp hx2 with ⟨hx3, hx4⟩
              exact ⟨hx3, by simpa using hx4⟩
            obtain ⟨hauto_each, hauto_pw⟩ := autoDivide_facts hnodup had
            refine ⟨?_, ?_, st.allocs, autos, st, wmem, rfl, hmm, hpg, rfl, had,
              fun a ha => ⟨(hauto_each a ha).2.1, (hauto_each a ha).2.2⟩⟩
            · intro a ha
              rcases List.mem_append.mp ha with h1 | h1
              · exact i1 a h1
              · exact fun x hx => (hremmem x ((hauto_each a h1).1 hx)).1
            · rw [List.pairwise_append]
              refine ⟨i2, hauto_pw, ?_⟩
              intro a ha b hb x hxa hxb
              exact (hremmem x ((hauto_each b hb).1 hxb)).2 (i3 a ha hxa)

/-- Concrete configuration for the C8 witness: worker `w1` with cores 0-7
and 4 GB, one explicit CRS on cores 0-3 with 1 GB, three auto CRS. -/
abbrev cfgC8 : ResourceConfig :=
  ⟨[("e1", ⟨[("w1")],
      some ⟨[(("w1"), ⟨some (("0-3").toList), some (("1G").toList)⟩)], none, none⟩⟩),
    ("a1", ⟨[("w1")], none⟩),
    ("a2", ⟨[("w1")], none⟩),
    ("a3", ⟨[("w1")], none⟩)],
   [(("w1"), ⟨some (("0-7").toList), some (("4G").toList)⟩)]⟩

/-- The plan `cfgC8` produces for `w1`. -/
abbrev planC8 : List Alloc :=
  [⟨"e1", [0, 1, 2, 3], 1024, "runner", "cpus"⟩,
   ⟨"a1", [4], 1024, "runner", "cpuset"⟩,
   ⟨"a2", [5], 1024, "runner", "cpuset"⟩,
   ⟨"a3", [6, 7], 1024, "runner", "cpuset"⟩]

theorem c8_plan_invariants_witness :
    get_crs_for_worker ("w1") cfgC8 = .ok planC8
    ∧ ((∀ a ∈ planC8, a.cpus ⊆ workerAllCpus cfgC8 ("w1"))
      ∧ planC8.Pairwise (fun a b => a.cpus.Disjoint b.cpus)
      ∧ ∃ (exps autos : List Alloc) (st : ExpState) (wmem : Int),
          planC8 = exps ++ autos ∧
          parse_memory_mb (workerMemSpec cfgC8 ("w1")) = some wmem ∧
          processGo ("w1") (workerAllCpus cfgC8 ("w1")) (workerCpuSpec cfgC8 ("w1"))
            ⟨[], [], 0⟩ (classifyCrs ("w1") cfgC8.crs).1 = .ok st ∧
          st.allocs = exps ∧
          autoDivide ("w1")
            (List.insertionSort (fun a b => a ≤ b)
              ((workerAllCpus cfgC8 ("w1")).filter (fun x => decide (x ∉ st.used))))
            (wmem - st.usedMem) (classifyCrs ("w1") cfgC8.crs).2 = .ok autos ∧
          (∀ a ∈ autos, 1 ≤ a.cpus.length ∧ 512 ≤ a.memoryMB)) :=
  ⟨by rfl, c8_plan_invariants ("w1") cfgC8 planC8 (by rfl)⟩
